import Mathlib

/-!
Verification development for the volatility feature engine of the
mercator repository (src/mercator_data/volatility.py).

The Python code operates on pandas Series/DataFrames of IEEE floats.  The
shallow embedding below models:

* a pandas Series of floats as a `List (Option ℝ)`, where `none` stands for
  a missing / undefined entry (IEEE NaN as well as the non-finite values
  produced by log of a non-positive number or division by zero; the spec's
  own data model is `real | undefined`);
* a pandas DataFrame as a `Frame`: a column-name list (the schema) together
  with rows; each row carries its integer index label (`Row.idx`, pandas'
  default RangeIndex position) and an association list of cells;
* dates (pandas `datetime64`, internally an int64) as integers, instrument
  ids as strings, numeric cells as reals or integers, NaN cells as `vnull`.

Library behaviour of pandas that the code relies on is embedded following
the documented / source semantics of pandas 2.x (the repository requires
pandas ≥ 2.1, cf. `future_stack=True` in src/mercator_data/ingest.py):

* `Series.rolling(window).sum()` with the default `min_periods=window`
  yields a defined value at position `i` iff `window ≤ i+1` and all
  `window` trailing entries are defined;
* `DataFrame.groupby(key)` uses `sort=True` (group keys in ascending
  order) and `dropna=True` (rows whose key is NaN are dropped);
* `GroupBy.apply` with zero groups never calls the applied function and
  returns an empty frame with the *input* columns
  (`_wrap_applied_output`, `len(values) == 0` branch);
* `GroupBy.apply` with `group_keys=False` checks, for every group, whether
  the frame returned by the function has an index equal (element-wise,
  order included) to the group's own index (`_is_indexed_like`); if every
  group passes, the concatenated result is reindexed back to the original
  frame's index order (minus rows dropped by `dropna`); otherwise the
  groups are concatenated in ascending key order (`_concat_objects`);
* column assignment `x[c] = s` overwrites a column named `c` in place if it
  exists and appends it at the end of the schema otherwise.
-/

/-- Cell value of a data frame: string, integer (dates), real (prices and
derived features), or NaN/missing (`vnull`). -/
inductive Val where
  | vstr : String → Val
  | vint : Int → Val
  | vreal : ℝ → Val
  | vnull : Val

/-- One data-frame row: its pandas index label (position in the original
frame) and its cells, keyed by column name. -/
structure Row where
  idx : Nat
  cells : List (String × Val)

/-- A pandas DataFrame: schema (ordered column names) plus rows. -/
structure Frame where
  cols : List String
  rows : List Row

/-- Error raised for a column access on a missing column (pandas raises
`KeyError`; the spec calls it `MissingColumnError`). -/
inductive Err where
  | missingColumn : String → Err
deriving DecidableEq

/-- Model of `np.log` on a float: defined (and equal to the real log) on
positive arguments, undefined otherwise (IEEE NaN / -inf). -/
noncomputable def mlog (x : ℝ) : Option ℝ :=
  if 0 < x then some (Real.log x) else none

/-- Model of `(...).pow(0.5)` on a float: the real square root on
non-negative arguments, undefined (NaN) on negative ones. -/
noncomputable def msqrt (x : ℝ) : Option ℝ :=
  if 0 ≤ x then some (Real.sqrt x) else none

/-- Elementwise float division with NaN propagation; division by zero is
modelled as undefined (IEEE ±inf / NaN). -/
noncomputable def odiv (a b : Option ℝ) : Option ℝ :=
  a.bind fun x => b.bind fun y => if y = 0 then none else some (x / y)

/-- `np.log` lifted to a possibly-missing entry (NaN in, NaN out). -/
noncomputable def olog (a : Option ℝ) : Option ℝ :=
  a.bind mlog

/-- Sum of one rolling window: defined iff every entry of the slice is
defined (pandas counts NaNs against `min_periods`). -/
noncomputable def windowSum (sl : List (Option ℝ)) : Option ℝ :=
  if sl.all Option.isSome then some ((sl.map fun o => o.getD 0).sum) else none

/-- Model of `Series.rolling(window).sum()` with the pandas default
`min_periods = window`: position `i` holds the sum of entries
`i+1-window .. i` when `window ≤ i+1` and all of those entries are
defined, and is undefined otherwise. -/
noncomputable def rollingSum (window : ℕ) (xs : List (Option ℝ)) : List (Option ℝ) :=
  (List.range xs.length).map fun i =>
    if window ≤ i + 1 then windowSum ((xs.drop (i + 1 - window)).take window)
    else none

/-- Model of `Series.diff()`: first entry undefined, entry `i ≥ 1` is
`x[i] - x[i-1]` when both are defined. -/
noncomputable def diff1 (xs : List (Option ℝ)) : List (Option ℝ) :=
  (List.range xs.length).map fun i =>
    match i with
    | 0 => none
    | j + 1 => (xs.getD j none).bind fun a => (xs.getD (j + 1) none).bind fun b => some (b - a)

/-- Embedding of `log_returns` (volatility.py line 19-20):
`np.log(close).diff()`. -/
noncomputable def log_returns (close : List (Option ℝ)) : List (Option ℝ) :=
  diff1 (close.map olog)

/-- Per-day Parkinson terms `coef * ln(high/low)^2` with
`coef = 1/(4 ln 2)` (volatility.py lines 7-9). -/
noncomputable def pkTerms (high low : List (Option ℝ)) : List (Option ℝ) :=
  (List.zipWith (fun h l => olog (odiv h l)) high low).map
    (Option.map fun r => 1 / (4 * Real.log 2) * r ^ 2)

/-- Embedding of `parkinson_vol` (volatility.py lines 5-9):
`(coef * ln(high/low)^2).rolling(window).sum().pow(0.5)`. -/
noncomputable def parkinson_vol (high low : List (Option ℝ)) (window : ℕ) : List (Option ℝ) :=
  (rollingSum window (pkTerms high low)).map fun s => s.bind msqrt

/-- Per-day Garman-Klass variance terms
`0.5 ln(high/low)^2 - (2 ln 2 - 1) ln(close/open)^2`
(volatility.py lines 13-15). -/
noncomputable def gkVar (open_ high low close : List (Option ℝ)) : List (Option ℝ) :=
  List.zipWith
    (fun a b => a.bind fun x => b.bind fun y =>
      some (0.5 * x ^ 2 - (2 * Real.log 2 - 1) * y ^ 2))
    (List.zipWith (fun h l => olog (odiv h l)) high low)
    (List.zipWith (fun c o => olog (odiv c o)) close open_)

/-- Embedding of `garman_klass_vol` (volatility.py lines 11-17): rolling
sum of the variance terms, clipped below at 0, then `pow(0.5)`. -/
noncomputable def garman_klass_vol (open_ high low close : List (Option ℝ))
    (window : ℕ) : List (Option ℝ) :=
  ((rollingSum window (gkVar open_ high low close)).map (Option.map fun s => max s 0)).map
    fun s => s.bind msqrt

/-- First-match cell lookup in a row's association list (a pandas column
holds one value per row; column names are unique in a frame). -/
def getCellList : List (String × Val) → String → Val
  | [], _ => .vnull
  | p :: ps, c => if p.1 = c then p.2 else getCellList ps c

/-- Value of the cell of row `r` in column `c` (`vnull` when absent). -/
def getCell (r : Row) (c : String) : Val :=
  getCellList r.cells c

/-- Column assignment on one row's cells: overwrite in place when the
column exists, append at the end otherwise (pandas `x[c] = ...`). -/
def setCellList : List (String × Val) → String → Val → List (String × Val)
  | [], c, v => [(c, v)]
  | p :: ps, c, v => if p.1 = c then (c, v) :: ps else p :: setCellList ps c v

/-- Column assignment on a row, keeping its index label. -/
def setCell (r : Row) (c : String) (v : Val) : Row :=
  ⟨r.idx, setCellList r.cells c v⟩

/-- Numeric view of a cell (cast to float in pandas arithmetic); a NaN or
non-numeric cell is undefined. -/
noncomputable def toR : Val → Option ℝ
  | .vreal x => some x
  | .vint n => some (n : ℝ)
  | _ => none

/-- Integer view of a date cell (`datetime64` is an int64 internally). -/
def getInt : Val → Int
  | .vint n => n
  | _ => 0

/-- Sort key for `x.sort_values("date")`. -/
def dateKey (r : Row) : Int :=
  getInt (getCell r "date")

/-- Grouping key for `df.groupby("Ticker")`: the instrument id string, or
`none` for a NaN key (pandas `dropna=True` drops such rows). -/
def tickerKey (r : Row) : Option String :=
  match getCell r "Ticker" with
  | .vstr s => some s
  | _ => none

/-- Model of `x.sort_values("date")`: rows in ascending date order.  The
model fixes a stable order on ties; pandas' default `kind='quicksort'`
guarantees only sortedness, not tie order. -/
def sort_values_date (rows : List Row) : List Row :=
  List.insertionSort (fun a b => dateKey a ≤ dateKey b) rows

/-- A float cell for a derived feature value (`vnull` for NaN). -/
def mkCell : Option ℝ → Val
  | some x => .vreal x
  | none => .vnull

/-- The three column assignments of `_by_ticker` on one row:
`ret_log_1d`, `vol_pk`, `vol_gk` in assignment order. -/
def extendRow (r : Row) (a b c : Option ℝ) : Row :=
  setCell (setCell (setCell r "ret_log_1d" (mkCell a)) "vol_pk" (mkCell b)) "vol_gk" (mkCell c)

/-- Attach the three derived series to the sorted rows, positionally (the
series are computed from the sorted frame itself, so pandas' index
alignment is positional here). -/
noncomputable def attachFeats (s : List Row) (ret vpk vgk : List (Option ℝ)) : List Row :=
  (List.range s.length).map fun i =>
    extendRow (s.getD i ⟨0, []⟩) (ret.getD i none) (vpk.getD i none) (vgk.getD i none)

/-- The pure per-group transform of `_by_ticker` (volatility.py lines
27-32): sort the partition by date, compute the three derived series from
the sorted rows' own columns, and attach them. -/
noncomputable def procGroup (window : ℕ) (g : List Row) : List Row :=
  let s := sort_values_date g
  attachFeats s
    (log_returns (s.map fun r => toR (getCell r "Close")))
    (parkinson_vol (s.map fun r => toR (getCell r "High"))
      (s.map fun r => toR (getCell r "Low")) window)
    (garman_klass_vol (s.map fun r => toR (getCell r "Open"))
      (s.map fun r => toR (getCell r "High"))
      (s.map fun r => toR (getCell r "Low"))
      (s.map fun r => toR (getCell r "Close")) window)

/-- Embedding of the inner `_by_ticker` closure of `add_range_vol_features`
(volatility.py lines 27-32), applied to one instrument's rows.  Column
accesses happen in source order (`date` for the sort, then `Close`,
`High`, `Low`, `Open` for the three features); the first missing column
raises `KeyError` (`MissingColumnError`) before any result is returned,
otherwise the result is the per-group transform `procGroup`. -/
noncomputable def by_ticker (cols : List String) (window : ℕ) (g : List Row) :
    Except Err (List Row) :=
  if "date" ∈ cols then
    if "Close" ∈ cols then
      if "High" ∈ cols then
        if "Low" ∈ cols then
          if "Open" ∈ cols then .ok (procGroup window g)
          else .error (.missingColumn "Open")
        else .error (.missingColumn "Low")
      else .error (.missingColumn "High")
    else .error (.missingColumn "Close")
  else .error (.missingColumn "date")

/-- Lexicographic comparison of character lists by code point; the order
pandas uses for string group keys. -/
def charListLe : List Char → List Char → Bool
  | [], _ => true
  | _ :: _, [] => false
  | x :: xs, y :: ys =>
    if x.toNat < y.toNat then true
    else if y.toNat < x.toNat then false
    else charListLe xs ys

/-- Lexicographic string comparison by code point (the standard string
order, written out so that it evaluates inside the kernel). -/
def strLe (a b : String) : Bool :=
  charListLe a.data b.data

/-- Distinct grouping keys in ascending order (pandas groupby default
`sort=True`), with NaN keys dropped (`dropna=True`). -/
def distinctKeys (rows : List Row) : List String :=
  (List.insertionSort (fun a b => strLe a b = true) (rows.filterMap tickerKey)).dedup

/-- The rows of one instrument partition, in original input order. -/
def groupRows (rows : List Row) (k : String) : List Row :=
  rows.filter fun r => decide (tickerKey r = some k)

/-- Schema update of a column assignment. -/
def addCol (cols : List String) (c : String) : List String :=
  if c ∈ cols then cols else cols ++ [c]

/-- Schema after the three feature assignments. -/
def addDerivedCols (cols : List String) : List String :=
  addCol (addCol (addCol cols "ret_log_1d") "vol_pk") "vol_gk"

/-- Embedding of `add_range_vol_features` (volatility.py lines 22-35):
`df.groupby("Ticker", group_keys=False).apply(_by_ticker)`.

Groupby requires the `Ticker` column and drops NaN keys; with zero groups
the applied function is never called and an empty frame with the input
schema is returned.  Otherwise the groups are processed in ascending key
order; if some group's returned index differs from the group's own index
(pandas `_is_indexed_like`), the group results are concatenated in key
order, else the concatenation is reindexed back to the original row order
of the surviving rows (pandas `_concat_objects`, `group_keys=False`). -/
noncomputable def add_range_vol_features (t : Frame) (window : ℕ) : Except Err Frame :=
  if "Ticker" ∈ t.cols then
    if distinctKeys t.rows = [] then .ok ⟨t.cols, []⟩
    else
      match ((distinctKeys t.rows).map (groupRows t.rows)).mapM (by_ticker t.cols window) with
      | .error e => .error e
      | .ok results =>
        if (List.zipWith (fun res g => decide (res.map Row.idx ≠ g.map Row.idx)) results
            ((distinctKeys t.rows).map (groupRows t.rows))).any id then
          .ok ⟨addDerivedCols t.cols, results.flatten⟩
        else
          .ok ⟨addDerivedCols t.cols,
            ((t.rows.filter fun r => (tickerKey r).isSome).map Row.idx).filterMap fun i =>
              results.flatten.find? fun r => decide (r.idx = i)⟩
  else .error (.missingColumn "Ticker")

/-- The required input columns of `add_range_vol_features`. -/
def requiredCols : List String :=
  ["date", "Ticker", "Open", "High", "Low", "Close"]

/-- Whether some partition's rows are reordered by the date sort (the
model's counterpart of pandas' mutation check in `GroupBy.apply`). -/
def mutatedOf (rows : List Row) : Bool :=
  ((distinctKeys rows).map (groupRows rows)).any fun g =>
    decide ((sort_values_date g).map Row.idx ≠ g.map Row.idx)

/-- The three derived feature columns, in assignment order. -/
def derivedColNames : List String :=
  ["ret_log_1d", "vol_pk", "vol_gk"]

/-- Rows produced by the mutated branch of `add_range_vol_features`: the
per-instrument results concatenated in ascending key order. -/
noncomputable def flatRows (window : ℕ) (rows : List Row) : List Row :=
  ((distinctKeys rows).map fun k => procGroup window (groupRows rows k)).flatten

/-- Rows produced by the reindexing branch of `add_range_vol_features`:
the concatenation reordered to the original index order of the rows whose
grouping key is not NaN. -/
noncomputable def reindexRows (window : ℕ) (rows : List Row) : List Row :=
  ((rows.filter fun r => (tickerKey r).isSome).map Row.idx).filterMap fun i =>
    (flatRows window rows).find? fun r => decide (r.idx = i)

/-- Example frame: zero rows, `Open` column absent. -/
def exEmptyMissingOpen : Frame :=
  ⟨["date", "Ticker", "High", "Low", "Close"], []⟩

/-- Example frame: zero rows, all required columns present. -/
def exEmptyRequired : Frame :=
  ⟨requiredCols, []⟩

/-- Example frame: one row whose `Ticker` cell is NaN. -/
def exNullTicker : Frame :=
  ⟨requiredCols, [⟨0, [("date", .vint 0), ("Ticker", .vnull), ("Open", .vint 1),
    ("High", .vint 1), ("Low", .vint 1), ("Close", .vint 1)]⟩]⟩

/-- Example frame: one ordinary row for instrument `A`. -/
def exOneRow : Frame :=
  ⟨requiredCols, [⟨0, [("date", .vint 0), ("Ticker", .vstr "A"), ("Open", .vint 1),
    ("High", .vint 1), ("Low", .vint 1), ("Close", .vint 1)]⟩]⟩

/-- Example frame: one row for `A`, `Open` column absent. -/
def exRowMissingOpen : Frame :=
  ⟨["date", "Ticker", "High", "Low", "Close"], [⟨0, [("date", .vint 0), ("Ticker", .vstr "A"),
    ("High", .vint 1), ("Low", .vint 1), ("Close", .vint 1)]⟩]⟩

/-- Example frame: instruments `B` then `A`, one row each, every group
already sorted by date. -/
def exTwoTickers : Frame :=
  ⟨requiredCols, [⟨0, [("date", .vint 0), ("Ticker", .vstr "B"), ("Open", .vint 1),
    ("High", .vint 1), ("Low", .vint 1), ("Close", .vint 1)]⟩,
  ⟨1, [("date", .vint 0), ("Ticker", .vstr "A"), ("Open", .vint 1),
    ("High", .vint 1), ("Low", .vint 1), ("Close", .vint 1)]⟩]⟩

/-- Example frame: instrument `A` with two rows in descending date order. -/
def exUnsortedDates : Frame :=
  ⟨requiredCols, [⟨0, [("date", .vint 1), ("Ticker", .vstr "A"), ("Open", .vint 1),
    ("High", .vint 1), ("Low", .vint 1), ("Close", .vint 1)]⟩,
  ⟨1, [("date", .vint 0), ("Ticker", .vstr "A"), ("Open", .vint 1),
    ("High", .vint 1), ("Low", .vint 1), ("Close", .vint 1)]⟩]⟩

/-- Example frame: one row for `A` with a pre-existing `vol_pk` column
holding the integer 7. -/
def exPrefilledVolPk : Frame :=
  ⟨requiredCols ++ ["vol_pk"], [⟨0, [("date", .vint 0), ("Ticker", .vstr "A"),
    ("Open", .vint 1), ("High", .vint 1), ("Low", .vint 1), ("Close", .vint 1),
    ("vol_pk", .vint 7)]⟩]⟩

/-! ### List indexing toolkit -/

theorem getD_map_range {α : Type} (f : ℕ → α) (n i : ℕ) (d : α) (hi : i < n) :
    ((List.range n).map f).getD i d = f i := by
  rw [List.getD_eq_getElem?_getD]
  simp [List.getElem?_map, List.getElem?_range, hi]

theorem getD_of_length_le {α : Type} (l : List α) (i : ℕ) (d : α) (h : l.length ≤ i) :
    l.getD i d = d := by
  rw [List.getD_eq_getElem?_getD, List.getElem?_eq_none (by omega)]
  rfl

theorem getD_map_lt {α β : Type} (f : α → β) (l : List α) (i : ℕ) (d : α) (d' : β)
    (hi : i < l.length) : (l.map f).getD i d' = f (l.getD i d) := by
  rw [List.getD_eq_getElem?_getD, List.getD_eq_getElem?_getD, List.getElem?_map,
    List.getElem?_eq_getElem hi]
  rfl

theorem getD_zipWith_lt {α β γ : Type} (f : α → β → γ) (l₁ : List α) (l₂ : List β)
    (i : ℕ) (d₁ : α) (d₂ : β) (d : γ) (h₁ : i < l₁.length) (h₂ : i < l₂.length) :
    (List.zipWith f l₁ l₂).getD i d = f (l₁.getD i d₁) (l₂.getD i d₂) := by
  rw [List.getD_eq_getElem?_getD, List.getD_eq_getElem?_getD, List.getD_eq_getElem?_getD,
    List.getElem?_zipWith, List.getElem?_eq_getElem h₁, List.getElem?_eq_getElem h₂]
  rfl

theorem drop_take_eq_map_range {α : Type} (l : List α) (a w : ℕ) (d : α)
    (h : a + w ≤ l.length) :
    (l.drop a).take w = (List.range w).map fun k => l.getD (a + k) d := by
  apply List.ext_getElem
  · simp; omega
  · intro i h₁ h₂
    have hiw : i < w := by simpa using h₂
    have hal : a + i < l.length := by omega
    simp only [List.getElem_take, List.getElem_drop, List.getElem_map, List.getElem_range]
    rw [List.getD_eq_getElem?_getD, List.getElem?_eq_getElem hal]
    rfl

theorem sum_map_range (f : ℕ → ℝ) (w : ℕ) :
    ((List.range w).map f).sum = ∑ k in Finset.range w, f k := by
  induction w with
  | zero => simp
  | succ n ih => rw [List.range_succ, List.map_append, List.sum_append,
      Finset.sum_range_succ, ih]; simp

theorem zipWith_congr_mem {α β γ : Type} (f g : α → β → γ) :
    ∀ (l₁ : List α) (l₂ : List β), (∀ a ∈ l₁, ∀ b ∈ l₂, f a b = g a b) →
      List.zipWith f l₁ l₂ = List.zipWith g l₁ l₂
  | [], _, _ => by simp
  | _ :: _, [], _ => by simp
  | a :: l₁, b :: l₂, h => by
    simp only [List.zipWith_cons_cons]
    rw [h a (by simp) b (by simp), zipWith_congr_mem f g l₁ l₂
      (fun x hx y hy => h x (by simp [hx]) y (by simp [hy]))]

/-! ### Rolling-sum characterisation -/

theorem rollingSum_length (w : ℕ) (xs : List (Option ℝ)) :
    (rollingSum w xs).length = xs.length := by
  simp [rollingSum]

theorem rollingSum_getD_of_lt (w : ℕ) (xs : List (Option ℝ)) (i : ℕ)
    (hi : i < xs.length) (hw : i + 1 < w) :
    (rollingSum w xs).getD i none = none := by
  rw [rollingSum, getD_map_range _ _ _ _ hi, if_neg (by omega)]

theorem windowSum_map_some (zs : List ℝ) :
    windowSum (zs.map some) = some zs.sum := by
  rw [windowSum, if_pos]
  · congr 1
    rw [List.map_map]
    have hcomp : ((fun o : Option ℝ => o.getD 0) ∘ some) = id := funext fun _ => rfl
    rw [hcomp, List.map_id]
  · rw [List.all_eq_true]
    intro x hx
    rcases List.mem_map.mp hx with ⟨y, _, rfl⟩
    rfl

theorem rollingSum_getD_of_le (w : ℕ) (ys : List ℝ) (i : ℕ)
    (hi : i < ys.length) (hw : w ≤ i + 1) :
    (rollingSum w (ys.map some)).getD i none
      = some (∑ j in Finset.Icc (i + 1 - w) i, ys.getD j 0) := by
  have hlen : i < (ys.map some).length := by simpa using hi
  rw [rollingSum, getD_map_range _ _ _ _ hlen, if_pos hw]
  have hbound : (i + 1 - w) + w ≤ ys.length := by omega
  have hsl : (((ys.map some).drop (i + 1 - w)).take w)
      = ((ys.drop (i + 1 - w)).take w).map some := by
    rw [← List.map_drop, ← List.map_take]
  rw [hsl, windowSum_map_some]
  congr 1
  rw [drop_take_eq_map_range ys (i + 1 - w) w 0 hbound, sum_map_range,
    ← Nat.Ico_succ_right, Finset.sum_Ico_eq_sum_range]
  have hww : i + 1 - (i + 1 - w) = w := by omega
  rw [hww]

theorem rollingSum_getD_none (w : ℕ) (xs : List (Option ℝ)) (i j : ℕ)
    (hi : i < xs.length) (hw : w ≤ i + 1) (hj₁ : i + 1 - w ≤ j) (hj₂ : j ≤ i)
    (hbad : xs.getD j none = none) :
    (rollingSum w xs).getD i none = none := by
  rw [rollingSum, getD_map_range _ _ _ _ hi, if_pos hw]
  have hjl : j < xs.length := by omega
  have hmem : (none : Option ℝ) ∈ (xs.drop (i + 1 - w)).take w := by
    have hlt : j - (i + 1 - w) < ((xs.drop (i + 1 - w)).take w).length := by
      simp only [List.length_take, List.length_drop]
      omega
    have : ((xs.drop (i + 1 - w)).take w)[j - (i + 1 - w)] = xs[j] := by
      rw [List.getElem_take, List.getElem_drop]
      congr 1
      omega
    have hx : xs[j] = none := by
      rw [List.getD_eq_getElem?_getD, List.getElem?_eq_getElem hjl] at hbad
      simpa using hbad
    rw [hx] at this
    exact this ▸ List.getElem_mem hlt
  have hall : ((xs.drop (i + 1 - w)).take w).all Option.isSome = false := by
    rw [List.all_eq_false]
    exact ⟨none, hmem, by simp⟩
  rw [windowSum, hall]
  simp

/-! ### Per-day terms under positive prices -/

theorem olog_odiv_pos (a b : ℝ) (ha : 0 < a) (hb : 0 < b) :
    olog (odiv (some a) (some b)) = some (Real.log (a / b)) := by
  simp [odiv, olog, mlog, hb.ne', div_pos ha hb]

theorem pkTerms_pos (high low : List ℝ)
    (hh : ∀ x ∈ high, 0 < x) (hl : ∀ x ∈ low, 0 < x) :
    pkTerms (high.map some) (low.map some)
      = (List.zipWith (fun h l => 1 / (4 * Real.log 2) * Real.log (h / l) ^ 2) high low).map
          some := by
  rw [pkTerms, List.zipWith_map,
    zipWith_congr_mem _ (fun h l => some (Real.log (h / l))) high low
      (fun a ha b hb => olog_odiv_pos a b (hh a ha) (hl b hb))]
  simp [List.map_zipWith]

theorem diff1_length (xs : List (Option ℝ)) : (diff1 xs).length = xs.length := by
  simp [diff1]

theorem diff1_getD_zero (xs : List (Option ℝ)) (h : 0 < xs.length) :
    (diff1 xs).getD 0 none = none := by
  rw [diff1, getD_map_range _ _ _ _ h]

theorem diff1_getD_succ (xs : List (Option ℝ)) (j : ℕ) (h : j + 1 < xs.length) :
    (diff1 xs).getD (j + 1) none
      = (xs.getD j none).bind fun a => (xs.getD (j + 1) none).bind fun b => some (b - a) := by
  rw [diff1, getD_map_range _ _ _ _ h]

theorem log_returns_length (close : List (Option ℝ)) :
    (log_returns close).length = close.length := by
  simp [log_returns, diff1]

theorem map_olog_map_some (close : List ℝ) (hc : ∀ x ∈ close, 0 < x) :
    (close.map some).map olog = (close.map Real.log).map some := by
  rw [List.map_map, List.map_map]
  apply List.map_congr_left
  intro a ha
  simp [olog, mlog, hc a ha]

/-- C1: for ordered sequences of positive highs and lows and a positive
window, `parkinson_vol` has the input length and its entry `i` equals
`sqrt (sum over j in [i-window+1 .. i] of (1/(4 ln 2)) ln(high j / low j)^2)`
when `window ≤ i+1`, and is undefined otherwise. -/
theorem C1_parkinson_vol_spec (high low : List ℝ) (window i : ℕ)
    (hlen : high.length = low.length)
    (hh : ∀ x ∈ high, 0 < x) (hl : ∀ x ∈ low, 0 < x)
    (hwpos : 1 ≤ window) (hi : i < high.length) :
    (parkinson_vol (high.map some) (low.map some) window).length = high.length ∧
    (parkinson_vol (high.map some) (low.map some) window).getD i none
      = if window ≤ i + 1 then
          some (Real.sqrt (∑ j in Finset.Icc (i + 1 - window) i,
            1 / (4 * Real.log 2) * Real.log (high.getD j 1 / low.getD j 1) ^ 2))
        else none := by
  have hv := pkTerms_pos high low hh hl
  have hvlen : (List.zipWith (fun h l => 1 / (4 * Real.log 2) * Real.log (h / l) ^ 2)
      high low).length = high.length := by
    simp [hlen]
  constructor
  · rw [parkinson_vol, List.length_map, rollingSum_length, hv, List.length_map, hvlen]
  · rw [parkinson_vol, hv]
    have hi' : i < (rollingSum window
        ((List.zipWith (fun h l => 1 / (4 * Real.log 2) * Real.log (h / l) ^ 2)
          high low).map some)).length := by
      rw [rollingSum_length, List.length_map, hvlen]; exact hi
    rw [getD_map_lt _ _ _ none none hi']
    by_cases hc : window ≤ i + 1
    · rw [if_pos hc, rollingSum_getD_of_le window _ i (by rw [hvlen]; exact hi) hc]
      have hsum : (∑ j in Finset.Icc (i + 1 - window) i,
            (List.zipWith (fun h l => 1 / (4 * Real.log 2) * Real.log (h / l) ^ 2)
              high low).getD j 0)
          = ∑ j in Finset.Icc (i + 1 - window) i,
              1 / (4 * Real.log 2) * Real.log (high.getD j 1 / low.getD j 1) ^ 2 := by
        apply Finset.sum_congr rfl
        intro j hj
        have hji : j ≤ i := (Finset.mem_Icc.mp hj).2
        exact getD_zipWith_lt _ high low j 1 1 0 (by omega) (by omega)
      rw [hsum]
      have hlog2 : 0 < Real.log 2 := Real.log_pos one_lt_two
      have hcoef : 0 ≤ 1 / (4 * Real.log 2) := div_nonneg zero_le_one (by linarith)
      have hS : 0 ≤ ∑ j in Finset.Icc (i + 1 - window) i,
          1 / (4 * Real.log 2) * Real.log (high.getD j 1 / low.getD j 1) ^ 2 :=
        Finset.sum_nonneg fun j _ => mul_nonneg hcoef (sq_nonneg _)
      rw [Option.some_bind, msqrt, if_pos hS]
    · rw [if_neg hc, rollingSum_getD_of_lt window _ i (by rw [List.length_map, hvlen]; exact hi)
        (by omega)]
      rfl

/-- Closed witness for C1 at `high = [2, 2]`, `low = [1, 1]`, `window = 1`,
`i = 0`. -/
theorem C1_witness :
    (([2, 2] : List ℝ).length = ([1, 1] : List ℝ).length ∧
      (∀ x ∈ ([2, 2] : List ℝ), 0 < x) ∧ (∀ x ∈ ([1, 1] : List ℝ), 0 < x) ∧
      (1 : ℕ) ≤ 1 ∧ 0 < ([2, 2] : List ℝ).length) ∧
    ((parkinson_vol (([2, 2] : List ℝ).map some) (([1, 1] : List ℝ).map some) 1).length
        = ([2, 2] : List ℝ).length ∧
      (parkinson_vol (([2, 2] : List ℝ).map some) (([1, 1] : List ℝ).map some) 1).getD 0 none
        = if 1 ≤ 0 + 1 then
            some (Real.sqrt (∑ j in Finset.Icc (0 + 1 - 1) 0,
              1 / (4 * Real.log 2)
                * Real.log (([2, 2] : List ℝ).getD j 1 / ([1, 1] : List ℝ).getD j 1) ^ 2))
          else none) :=
  ⟨⟨by norm_num, by norm_num, by norm_num, le_refl 1, by norm_num⟩,
    C1_parkinson_vol_spec [2, 2] [1, 1] 1 0 (by norm_num) (by norm_num) (by norm_num)
      (le_refl 1) (by norm_num)⟩

/-- C3: for positive closing prices, `log_returns` has the input length,
entry 0 is undefined, entry `i ≥ 1` equals `ln close[i] - ln close[i-1]`;
a constant series gives 0 at every `i ≥ 1`, and series of length 0 or 1
have every entry undefined. -/
theorem C3_log_returns_spec (close : List ℝ) (i : ℕ) (hc : ∀ x ∈ close, 0 < x) :
    (log_returns (close.map some)).length = close.length ∧
    (0 < close.length → (log_returns (close.map some)).getD 0 none = none) ∧
    (1 ≤ i → i < close.length →
      (log_returns (close.map some)).getD i none
        = some (Real.log (close.getD i 1) - Real.log (close.getD (i - 1) 1))) ∧
    (∀ c : ℝ, (∀ x ∈ close, x = c) → 1 ≤ i → i < close.length →
      (log_returns (close.map some)).getD i none = some 0) ∧
    (close.length ≤ 1 → ∀ k : ℕ, (log_returns (close.map some)).getD k none = none) := by
  have hmap : (close.map some).map olog = (close.map Real.log).map some :=
    map_olog_map_some close hc
  have hgd : ∀ k, k < close.length →
      ((close.map Real.log).map some).getD k none = some (Real.log (close.getD k 1)) := by
    intro k hk
    rw [getD_map_lt some _ k 1 none (by simpa using hk),
      getD_map_lt Real.log close k 1 1 hk]
  have hfor : ∀ m : ℕ, 1 ≤ m → m < close.length →
      (log_returns (close.map some)).getD m none
        = some (Real.log (close.getD m 1) - Real.log (close.getD (m - 1) 1)) := by
    intro m hm1 hml
    obtain ⟨j, rfl⟩ : ∃ j, m = j + 1 := ⟨m - 1, by omega⟩
    rw [log_returns, hmap, diff1_getD_succ _ j (by simpa using hml),
      hgd j (by omega), hgd (j + 1) hml]
    simp
  refine ⟨?_, ?_, ?_, ?_, ?_⟩
  · rw [log_returns, diff1_length, List.length_map, List.length_map]
  · intro h
    rw [log_returns, hmap, diff1_getD_zero _ (by simpa using h)]
  · exact hfor i
  · intro c hconst hi1 hil
    rw [hfor i hi1 hil]
    have h₁ : close.getD i 1 = c := by
      rw [List.getD_eq_getElem?_getD, List.getElem?_eq_getElem hil]
      simpa using hconst _ (List.getElem_mem hil)
    have h₂ : close.getD (i - 1) 1 = c := by
      have hl : i - 1 < close.length := by omega
      rw [List.getD_eq_getElem?_getD, List.getElem?_eq_getElem hl]
      simpa using hconst _ (List.getElem_mem hl)
    rw [h₁, h₂, sub_self]
  · intro hlen1 k
    by_cases hk : k < close.length
    · have hk0 : k = 0 := by omega
      subst hk0
      rw [log_returns, hmap, diff1_getD_zero _ (by simpa using hk)]
    · apply getD_of_length_le
      rw [log_returns, diff1_length, List.length_map, List.length_map]
      omega

/-- Closed witness for C3 at the constant positive series `[1, 1]`, `i = 1`. -/
theorem C3_witness :
    (∀ x ∈ ([1, 1] : List ℝ), 0 < x) ∧
    ((log_returns (([1, 1] : List ℝ).map some)).length = ([1, 1] : List ℝ).length ∧
      (0 < ([1, 1] : List ℝ).length →
        (log_returns (([1, 1] : List ℝ).map some)).getD 0 none = none) ∧
      (1 ≤ 1 → 1 < ([1, 1] : List ℝ).length →
        (log_returns (([1, 1] : List ℝ).map some)).getD 1 none
          = some (Real.log (([1, 1] : List ℝ).getD 1 1)
              - Real.log (([1, 1] : List ℝ).getD 0 1))) ∧
      (∀ c : ℝ, (∀ x ∈ ([1, 1] : List ℝ), x = c) → 1 ≤ 1 → 1 < ([1, 1] : List ℝ).length →
        (log_returns (([1, 1] : List ℝ).map some)).getD 1 none = some 0) ∧
      (([1, 1] : List ℝ).length ≤ 1 → ∀ k : ℕ,
        (log_returns (([1, 1] : List ℝ).map some)).getD k none = none)) :=
  ⟨by norm_num, by
    have h := C3_log_returns_spec [1, 1] 1 (by norm_num)
    simpa using h⟩

theorem zipWith_some_eq_map (f : ℝ → ℝ → ℝ) (l₁ l₂ : List ℝ) :
    List.zipWith (fun a b => some (f a b)) l₁ l₂ = (List.zipWith f l₁ l₂).map some :=
  (List.map_zipWith _ _ _ _).symm

theorem gkVar_pos (open_ high low close : List ℝ)
    (ho : ∀ x ∈ open_, 0 < x) (hh : ∀ x ∈ high, 0 < x)
    (hl : ∀ x ∈ low, 0 < x) (hc : ∀ x ∈ close, 0 < x) :
    gkVar (open_.map some) (high.map some) (low.map some) (close.map some)
      = (List.zipWith (fun a b => 0.5 * a ^ 2 - (2 * Real.log 2 - 1) * b ^ 2)
          (List.zipWith (fun h l => Real.log (h / l)) high low)
          (List.zipWith (fun c o => Real.log (c / o)) close open_)).map some := by
  rw [gkVar, List.zipWith_map, List.zipWith_map,
    zipWith_congr_mem _ (fun h l => some (Real.log (h / l))) high low
      (fun a ha b hb => olog_odiv_pos a b (hh a ha) (hl b hb)),
    zipWith_congr_mem _ (fun c o => some (Real.log (c / o))) close open_
      (fun a ha b hb => olog_odiv_pos a b (hc a ha) (ho b hb)),
    zipWith_some_eq_map (fun h l => Real.log (h / l)) high low,
    zipWith_some_eq_map (fun c o => Real.log (c / o)) close open_,
    List.zipWith_map]
  simp [List.map_zipWith]

/-- C2: for ordered sequences of positive opens, highs, lows and closes and
a positive window, `garman_klass_vol` takes the rolling sum `S i` of the
per-day terms `0.5 ln(high/low)^2 - (2 ln 2 - 1) ln(close/open)^2` and
returns `sqrt (max (S i) 0)` where `window ≤ i+1` and undefined otherwise;
every defined value is non-negative, and a non-positive rolling sum gives
exactly zero. -/
theorem C2_garman_klass_vol_spec (open_ high low close : List ℝ) (window i : ℕ)
    (hlo : open_.length = close.length) (hlh : high.length = close.length)
    (hll : low.length = close.length)
    (ho : ∀ x ∈ open_, 0 < x) (hh : ∀ x ∈ high, 0 < x)
    (hl : ∀ x ∈ low, 0 < x) (hc : ∀ x ∈ close, 0 < x)
    (hwpos : 1 ≤ window) (hi : i < close.length) :
    (garman_klass_vol (open_.map some) (high.map some) (low.map some) (close.map some)
        window).length = close.length ∧
    (garman_klass_vol (open_.map some) (high.map some) (low.map some) (close.map some)
        window).getD i none
      = (if window ≤ i + 1 then
          some (Real.sqrt (max (∑ j in Finset.Icc (i + 1 - window) i,
            (0.5 * Real.log (high.getD j 1 / low.getD j 1) ^ 2
              - (2 * Real.log 2 - 1) * Real.log (close.getD j 1 / open_.getD j 1) ^ 2)) 0))
        else none) ∧
    (∀ x : ℝ,
      (garman_klass_vol (open_.map some) (high.map some) (low.map some) (close.map some)
        window).getD i none = some x → 0 ≤ x) ∧
    (window ≤ i + 1 →
      (∑ j in Finset.Icc (i + 1 - window) i,
        (0.5 * Real.log (high.getD j 1 / low.getD j 1) ^ 2
          - (2 * Real.log 2 - 1) * Real.log (close.getD j 1 / open_.getD j 1) ^ 2)) ≤ 0 →
      (garman_klass_vol (open_.map some) (high.map some) (low.map some) (close.map some)
        window).getD i none = some 0) := by
  have hv := gkVar_pos open_ high low close ho hh hl hc
  have hVlen : (List.zipWith (fun a b => 0.5 * a ^ 2 - (2 * Real.log 2 - 1) * b ^ 2)
      (List.zipWith (fun h l => Real.log (h / l)) high low)
      (List.zipWith (fun c o => Real.log (c / o)) close open_)).length = close.length := by
    simp [hlo, hlh, hll]
  have hlenpart : (garman_klass_vol (open_.map some) (high.map some) (low.map some)
      (close.map some) window).length = close.length := by
    rw [garman_klass_vol, hv]
    simp [rollingSum_length, hVlen]
  have hform : (garman_klass_vol (open_.map some) (high.map some) (low.map some)
      (close.map some) window).getD i none
      = (if window ≤ i + 1 then
          some (Real.sqrt (max (∑ j in Finset.Icc (i + 1 - window) i,
            (0.5 * Real.log (high.getD j 1 / low.getD j 1) ^ 2
              - (2 * Real.log 2 - 1) * Real.log (close.getD j 1 / open_.getD j 1) ^ 2)) 0))
        else none) := by
    rw [garman_klass_vol, hv]
    have hi2 : i < ((rollingSum window
        ((List.zipWith (fun a b => 0.5 * a ^ 2 - (2 * Real.log 2 - 1) * b ^ 2)
          (List.zipWith (fun h l => Real.log (h / l)) high low)
          (List.zipWith (fun c o => Real.log (c / o)) close open_)).map some)).map
            (Option.map fun s => max s 0)).length := by
      simp [rollingSum_length, hVlen, hi]
    have hi3 : i < (rollingSum window
        ((List.zipWith (fun a b => 0.5 * a ^ 2 - (2 * Real.log 2 - 1) * b ^ 2)
          (List.zipWith (fun h l => Real.log (h / l)) high low)
          (List.zipWith (fun c o => Real.log (c / o)) close open_)).map some)).length := by
      simp [rollingSum_length, hVlen, hi]
    rw [getD_map_lt _ _ _ none none hi2, getD_map_lt _ _ _ none none hi3]
    by_cases hcw : window ≤ i + 1
    · rw [if_pos hcw, rollingSum_getD_of_le window _ i (by rw [hVlen]; exact hi) hcw]
      have hsum : (∑ j in Finset.Icc (i + 1 - window) i,
            (List.zipWith (fun a b => 0.5 * a ^ 2 - (2 * Real.log 2 - 1) * b ^ 2)
              (List.zipWith (fun h l => Real.log (h / l)) high low)
              (List.zipWith (fun c o => Real.log (c / o)) close open_)).getD j 0)
          = ∑ j in Finset.Icc (i + 1 - window) i,
              (0.5 * Real.log (high.getD j 1 / low.getD j 1) ^ 2
                - (2 * Real.log 2 - 1) * Real.log (close.getD j 1 / open_.getD j 1) ^ 2) := by
        apply Finset.sum_congr rfl
        intro j hj
        have hji : j ≤ i := (Finset.mem_Icc.mp hj).2
        rw [getD_zipWith_lt _ _ _ j 0 0 0 (by simp [hlh, hll]; omega) (by simp [hlo]; omega),
          getD_zipWith_lt _ high low j 1 1 0 (by omega) (by omega),
          getD_zipWith_lt _ close open_ j 1 1 0 (by omega) (by omega)]
      rw [hsum, Option.map_some', Option.some_bind, msqrt, if_pos (le_max_right _ 0)]
    · rw [if_neg hcw, rollingSum_getD_of_lt window _ i (by rw [List.length_map, hVlen]; exact hi)
        (by omega)]
      rfl
  refine ⟨hlenpart, hform, ?_, ?_⟩
  · intro x hx
    rw [hform] at hx
    by_cases hcw : window ≤ i + 1
    · rw [if_pos hcw] at hx
      exact (Option.some.inj hx) ▸ Real.sqrt_nonneg _
    · rw [if_neg hcw] at hx
      exact absurd hx (by simp)
  · intro hcw hneg
    rw [hform, if_pos hcw, max_eq_right hneg, Real.sqrt_zero]

/-- Closed witness for C2 at unit prices, `window = 1`, `i = 0`. -/
theorem C2_witness :
    (([1] : List ℝ).length = ([1] : List ℝ).length ∧ (∀ x ∈ ([1] : List ℝ), 0 < x) ∧
      (1 : ℕ) ≤ 1 ∧ 0 < ([1] : List ℝ).length) ∧
    ((garman_klass_vol (([1] : List ℝ).map some) (([1] : List ℝ).map some)
        (([1] : List ℝ).map some) (([1] : List ℝ).map some) 1).length = ([1] : List ℝ).length ∧
      (garman_klass_vol (([1] : List ℝ).map some) (([1] : List ℝ).map some)
        (([1] : List ℝ).map some) (([1] : List ℝ).map some) 1).getD 0 none
        = (if 1 ≤ 0 + 1 then
            some (Real.sqrt (max (∑ j in Finset.Icc (0 + 1 - 1) 0,
              (0.5 * Real.log (([1] : List ℝ).getD j 1 / ([1] : List ℝ).getD j 1) ^ 2
                - (2 * Real.log 2 - 1)
                  * Real.log (([1] : List ℝ).getD j 1 / ([1] : List ℝ).getD j 1) ^ 2)) 0))
          else none) ∧
      (∀ x : ℝ,
        (garman_klass_vol (([1] : List ℝ).map some) (([1] : List ℝ).map some)
          (([1] : List ℝ).map some) (([1] : List ℝ).map some) 1).getD 0 none = some x →
            0 ≤ x) ∧
      (1 ≤ 0 + 1 →
        (∑ j in Finset.Icc (0 + 1 - 1) 0,
          (0.5 * Real.log (([1] : List ℝ).getD j 1 / ([1] : List ℝ).getD j 1) ^ 2
            - (2 * Real.log 2 - 1)
              * Real.log (([1] : List ℝ).getD j 1 / ([1] : List ℝ).getD j 1) ^ 2)) ≤ 0 →
        (garman_klass_vol (([1] : List ℝ).map some) (([1] : List ℝ).map some)
          (([1] : List ℝ).map some) (([1] : List ℝ).map some) 1).getD 0 none = some 0)) :=
  ⟨⟨rfl, by norm_num, le_refl 1, by norm_num⟩,
    C2_garman_klass_vol_spec [1] [1] [1] [1] 1 0 rfl rfl rfl (by norm_num) (by norm_num)
      (by norm_num) (by norm_num) (le_refl 1) (by norm_num)⟩

/-! ### Frame-level toolkit -/

theorem extendRow_idx (r : Row) (a b c : Option ℝ) : (extendRow r a b c).idx = r.idx := rfl

theorem attachFeats_length (s : List Row) (ret vpk vgk : List (Option ℝ)) :
    (attachFeats s ret vpk vgk).length = s.length := by
  simp [attachFeats]

theorem attachFeats_map_idx (s : List Row) (ret vpk vgk : List (Option ℝ)) :
    (attachFeats s ret vpk vgk).map Row.idx = s.map Row.idx := by
  apply List.ext_getElem
  · simp [attachFeats]
  · intro i h₁ h₂
    have hi : i < s.length := by simpa using h₂
    simp only [List.getElem_map, attachFeats, List.getElem_range, extendRow_idx]
    rw [List.getD_eq_getElem?_getD, List.getElem?_eq_getElem hi]
    rfl

theorem sort_values_date_perm (g : List Row) : (sort_values_date g).Perm g :=
  List.perm_insertionSort _ g

theorem procGroup_length (w : ℕ) (g : List Row) : (procGroup w g).length = g.length := by
  rw [procGroup, attachFeats_length]
  exact (sort_values_date_perm g).length_eq

theorem procGroup_map_idx (w : ℕ) (g : List Row) :
    (procGroup w g).map Row.idx = (sort_values_date g).map Row.idx := by
  rw [procGroup, attachFeats_map_idx]

theorem by_ticker_ok (cols : List String) (w : ℕ) (g : List Row)
    (hd : "date" ∈ cols) (hc : "Close" ∈ cols) (hh : "High" ∈ cols)
    (hl : "Low" ∈ cols) (ho : "Open" ∈ cols) :
    by_ticker cols w g = .ok (procGroup w g) := by
  rw [by_ticker, if_pos hd, if_pos hc, if_pos hh, if_pos hl, if_pos ho]

theorem mapM_ok {α β : Type} (f : α → Except Err β) (g : α → β) (l : List α)
    (h : ∀ a ∈ l, f a = .ok (g a)) : l.mapM f = .ok (l.map g) := by
  induction l with
  | nil => rfl
  | cons a l ih =>
    rw [List.mapM_cons, h a (by simp), ih (fun x hx => h x (by simp [hx]))]
    rfl

theorem mapM_cons_error {α β : Type} (f : α → Except Err β) (a : α) (l : List α)
    (e : Err) (h : f a = .error e) : (a :: l).mapM f = .error e := by
  rw [List.mapM_cons, h]
  rfl

theorem any_zipWith_map {α β : Type} (f : β → α → Bool) (g : α → β) (l : List α) :
    (List.zipWith (fun res x => f res x) (l.map g) l).any id = l.any fun x => f (g x) x := by
  induction l with
  | nil => rfl
  | cons a l ih => simp [ih]

theorem add_range_empty_keys (t : Frame) (w : ℕ) (ht : "Ticker" ∈ t.cols)
    (hk : distinctKeys t.rows = []) :
    add_range_vol_features t w = .ok ⟨t.cols, []⟩ := by
  rw [add_range_vol_features, if_pos ht, if_pos hk]

theorem add_range_error_ticker (t : Frame) (w : ℕ) (ht : "Ticker" ∉ t.cols) :
    add_range_vol_features t w = .error (.missingColumn "Ticker") := by
  rw [add_range_vol_features, if_neg ht]

theorem add_range_eq (t : Frame) (w : ℕ) (hreq : requiredCols ⊆ t.cols)
    (hk : distinctKeys t.rows ≠ []) :
    add_range_vol_features t w
      = .ok ⟨addDerivedCols t.cols,
          if mutatedOf t.rows then flatRows w t.rows else reindexRows w t.rows⟩ := by
  have hmem : ∀ c ∈ requiredCols, c ∈ t.cols := fun c hc => hreq hc
  have ht : "Ticker" ∈ t.cols := hmem _ (by simp [requiredCols])
  have hmap : ((distinctKeys t.rows).map (groupRows t.rows)).mapM (by_ticker t.cols w)
      = .ok (((distinctKeys t.rows).map (groupRows t.rows)).map (procGroup w)) :=
    mapM_ok _ _ _ fun g _ => by_ticker_ok t.cols w g (hmem _ (by simp [requiredCols]))
      (hmem _ (by simp [requiredCols])) (hmem _ (by simp [requiredCols]))
      (hmem _ (by simp [requiredCols])) (hmem _ (by simp [requiredCols]))
  have hmut : (List.zipWith
      (fun res g => decide (res.map Row.idx ≠ g.map Row.idx))
      (((distinctKeys t.rows).map (groupRows t.rows)).map (procGroup w))
      ((distinctKeys t.rows).map (groupRows t.rows))).any id = mutatedOf t.rows := by
    rw [any_zipWith_map (fun res g => decide (res.map Row.idx ≠ g.map Row.idx))
      (procGroup w) ((distinctKeys t.rows).map (groupRows t.rows))]
    rw [mutatedOf]
    congr 1
    funext g
    rw [procGroup_map_idx]
  have hflat : (((distinctKeys t.rows).map (groupRows t.rows)).map (procGroup w)).flatten
      = flatRows w t.rows := by
    rw [flatRows, List.map_map]
    rfl
  rw [add_range_vol_features, if_pos ht, if_neg hk, hmap]
  dsimp only
  rw [hmut, hflat]
  by_cases hm : mutatedOf t.rows
  · rw [if_pos hm, if_pos hm]
  · rw [if_neg hm, if_neg hm, reindexRows]

theorem distinctKeys_nodup (rows : List Row) : (distinctKeys rows).Nodup :=
  List.nodup_dedup _

theorem mem_distinctKeys (rows : List Row) (r : Row) (s : String)
    (hr : r ∈ rows) (hs : tickerKey r = some s) : s ∈ distinctKeys rows := by
  rw [distinctKeys, List.mem_dedup]
  exact (List.perm_insertionSort _ _).mem_iff.mpr (List.mem_filterMap.mpr ⟨r, hr, hs⟩)

theorem charListLe_refl : ∀ l : List Char, charListLe l l = true := by
  intro l
  induction l with
  | nil => rfl
  | cons x xs ih => simp [charListLe, ih]

theorem charListLe_total : ∀ l₁ l₂ : List Char,
    charListLe l₁ l₂ = true ∨ charListLe l₂ l₁ = true := by
  intro l₁
  induction l₁ with
  | nil => intro l₂; left; rfl
  | cons x xs ih =>
    intro l₂
    cases l₂ with
    | nil => right; rfl
    | cons y ys =>
      by_cases hxy : x.toNat < y.toNat
      · left; simp [charListLe, hxy]
      · by_cases hyx : y.toNat < x.toNat
        · right; simp [charListLe, hyx]
        · rcases ih ys with h | h
          · left; simp [charListLe, hxy, hyx, h]
          · right; simp [charListLe, hxy, hyx, h]

theorem charListLe_trans : ∀ l₁ l₂ l₃ : List Char,
    charListLe l₁ l₂ = true → charListLe l₂ l₃ = true → charListLe l₁ l₃ = true := by
  intro l₁
  induction l₁ with
  | nil => intro l₂ l₃ _ _; rfl
  | cons x xs ih =>
    intro l₂ l₃ h₁₂ h₂₃
    cases l₂ with
    | nil => simp [charListLe] at h₁₂
    | cons y ys =>
      cases l₃ with
      | nil => simp [charListLe] at h₂₃
      | cons z zs =>
        by_cases hxy : x.toNat < y.toNat
        · by_cases hyz : y.toNat < z.toNat
          · have hxz : x.toNat < z.toNat := lt_trans hxy hyz
            simp [charListLe, hxz]
          · by_cases hzy : z.toNat < y.toNat
            · simp [charListLe, hyz, hzy] at h₂₃
            · have hxz : x.toNat < z.toNat := by omega
              simp [charListLe, hxz]
        · by_cases hyx : y.toNat < x.toNat
          · simp [charListLe, hxy, hyx] at h₁₂
          · by_cases hyz : y.toNat < z.toNat
            · have hxz : x.toNat < z.toNat := by omega
              simp [charListLe, hxz]
            · by_cases hzy : z.toNat < y.toNat
              · simp [charListLe, hyz, hzy] at h₂₃
              · have hxz1 : ¬x.toNat < z.toNat := by omega
                have hxz2 : ¬z.toNat < x.toNat := by omega
                simp only [charListLe, if_neg hxy, if_neg hyx] at h₁₂
                simp only [charListLe, if_neg hyz, if_neg hzy] at h₂₃
                simp only [charListLe, if_neg hxz1, if_neg hxz2]
                exact ih ys zs h₁₂ h₂₃

theorem strLe_refl (a : String) : strLe a a = true :=
  charListLe_refl a.data

theorem strLe_total (a b : String) : strLe a b = true ∨ strLe b a = true :=
  charListLe_total a.data b.data

theorem strLe_trans (a b c : String) :
    strLe a b = true → strLe b c = true → strLe a c = true :=
  charListLe_trans a.data b.data c.data

theorem distinctKeys_sorted (rows : List Row) :
    List.Sorted (fun a b => strLe a b = true) (distinctKeys rows) :=
  List.Pairwise.sublist (List.dedup_sublist _)
    (@List.sorted_insertionSort String (fun a b => strLe a b = true) _
      ⟨fun a b => strLe_total a b⟩ ⟨fun a b c => strLe_trans a b c⟩ _)

theorem sum_map_add (f g : String → ℕ) (l : List String) :
    (l.map fun k => f k + g k).sum = (l.map f).sum + (l.map g).sum := by
  induction l with
  | nil => rfl
  | cons a l ih => simp [ih]; omega

theorem sum_map_ite_zero (s : String) (keys : List String) (hs : s ∉ keys) :
    (keys.map fun k => if s = k then (1 : ℕ) else 0).sum = 0 := by
  apply List.sum_eq_zero
  intro x hx
  rcases List.mem_map.mp hx with ⟨k, hk, rfl⟩
  rw [if_neg]
  rintro rfl
  exact hs hk

theorem sum_map_ite_one (s : String) : ∀ keys : List String, keys.Nodup → s ∈ keys →
    (keys.map fun k => if s = k then (1 : ℕ) else 0).sum = 1
  | [], _, h => absurd h (by simp)
  | k :: keys, hnd, hs => by
    rcases List.mem_cons.mp hs with rfl | hs'
    · simp only [List.map_cons, List.sum_cons, if_pos rfl]
      rw [sum_map_ite_zero s keys (List.nodup_cons.mp hnd).1]
      simp
    · have hne : s ≠ k := by
        rintro rfl
        exact (List.nodup_cons.mp hnd).1 hs'
      simp only [List.map_cons, List.sum_cons, if_neg hne]
      rw [sum_map_ite_one s keys (List.nodup_cons.mp hnd).2 hs']

theorem groups_length_sum : ∀ (rows : List Row) (keys : List String), keys.Nodup →
    (∀ r ∈ rows, ∀ s, tickerKey r = some s → s ∈ keys) →
    (keys.map fun k => (groupRows rows k).length).sum
      = (rows.filter fun r => (tickerKey r).isSome).length := by
  intro rows
  induction rows with
  | nil => intro keys _ _; simp [groupRows]
  | cons r rows ih =>
    intro keys hnd hcov
    have hrest := ih keys hnd (fun x hx => hcov x (by simp [hx]))
    cases htk : tickerKey r with
    | none =>
      simp only [groupRows, List.filter_cons, htk] at *
      simpa using hrest
    | some s =>
      have hsk := hcov r (by simp) s htk
      have hgl : ∀ k, (groupRows (r :: rows) k).length
          = (if s = k then (1 : ℕ) else 0) + (groupRows rows k).length := by
        intro k
        simp only [groupRows, List.filter_cons, htk]
        by_cases hk : s = k
        · simp [hk]
          omega
        · simp [hk]
      have hmapeq : (keys.map fun k => (groupRows (r :: rows) k).length)
          = keys.map fun k => (if s = k then (1 : ℕ) else 0) + (groupRows rows k).length :=
        List.map_congr_left fun k _ => hgl k
      rw [hmapeq, sum_map_add, sum_map_ite_one s keys hnd hsk, hrest]
      simp [List.filter_cons, htk]
      omega

theorem flatRows_length (w : ℕ) (rows : List Row) :
    (flatRows w rows).length = (rows.filter fun r => (tickerKey r).isSome).length := by
  rw [flatRows, List.length_flatten, List.map_map]
  have hcomp : (List.length ∘ fun k => procGroup w (groupRows rows k))
      = fun k => (groupRows rows k).length := funext fun k => procGroup_length w _
  rw [hcomp]
  exact groups_length_sum rows (distinctKeys rows) (distinctKeys_nodup rows)
    (fun r hr s hs => mem_distinctKeys rows r s hr hs)

theorem mem_flatRows_idx (w : ℕ) (rows : List Row) (r : Row)
    (hr : r ∈ rows) (hs : (tickerKey r).isSome) :
    ∃ r' ∈ flatRows w rows, r'.idx = r.idx := by
  rcases Option.isSome_iff_exists.mp hs with ⟨s, hts⟩
  have hg : r ∈ groupRows rows s := by
    rw [groupRows, List.mem_filter]
    exact ⟨hr, by simp [hts]⟩
  have hsort : r ∈ sort_values_date (groupRows rows s) :=
    (sort_values_date_perm _).mem_iff.mpr hg
  have hidx : r.idx ∈ (procGroup w (groupRows rows s)).map Row.idx := by
    rw [procGroup_map_idx]
    exact List.mem_map.mpr ⟨r, hsort, rfl⟩
  rcases List.mem_map.mp hidx with ⟨r', hr', he⟩
  refine ⟨r', ?_, he⟩
  rw [flatRows]
  apply List.mem_flatten.mpr
  refine ⟨procGroup w (groupRows rows s), ?_, hr'⟩
  exact List.mem_map.mpr ⟨s, mem_distinctKeys rows r s hr hts, rfl⟩

theorem length_filterMap_of_isSome {α β : Type} (f : α → Option β) (l : List α)
    (h : ∀ a ∈ l, (f a).isSome) : (l.filterMap f).length = l.length := by
  induction l with
  | nil => rfl
  | cons a l ih =>
    cases hfa : f a with
    | none => exact absurd (hfa ▸ h a (by simp)) (by simp)
    | some b =>
      rw [List.filterMap_cons, hfa, List.length_cons, ih (fun x hx => h x (by simp [hx]))]
      rfl

theorem reindexRows_length (w : ℕ) (rows : List Row) :
    (reindexRows w rows).length = (rows.filter fun r => (tickerKey r).isSome).length := by
  rw [reindexRows]
  rw [length_filterMap_of_isSome _ _ ?hall, List.length_map]
  case hall =>
    intro i hi
    rcases List.mem_map.mp hi with ⟨r, hr, rfl⟩
    have hmem := List.mem_of_mem_filter hr
    have hsome : (tickerKey r).isSome := by
      have := List.of_mem_filter hr
      simpa using this
    rcases mem_flatRows_idx w rows r hmem hsome with ⟨r', hr', he⟩
    apply List.find?_isSome.mpr
    exact ⟨r', hr', by simp [he]⟩

theorem filter_isSome_eq_nil_of_keys (rows : List Row) (hk : distinctKeys rows = []) :
    rows.filter (fun r => (tickerKey r).isSome) = [] := by
  rw [List.filter_eq_nil_iff]
  intro r hr
  cases hts : tickerKey r with
  | none => simp
  | some s =>
    have := mem_distinctKeys rows r s hr hts
    rw [hk] at this
    exact absurd this (by simp)

theorem add_range_total (t : Frame) (w : ℕ) (hreq : requiredCols ⊆ t.cols) :
    ∃ out, add_range_vol_features t w = .ok out ∧
      out.rows.length = (t.rows.filter fun r => (tickerKey r).isSome).length := by
  have ht : "Ticker" ∈ t.cols := hreq (by simp [requiredCols])
  by_cases hk : distinctKeys t.rows = []
  · refine ⟨⟨t.cols, []⟩, add_range_empty_keys t w ht hk, ?_⟩
    rw [filter_isSome_eq_nil_of_keys t.rows hk]
  · refine ⟨_, add_range_eq t w hreq hk, ?_⟩
    by_cases hm : mutatedOf t.rows
    · rw [if_pos hm]
      exact flatRows_length w t.rows
    · rw [if_neg hm]
      exact reindexRows_length w t.rows

theorem getCellList_setCellList_ne (ps : List (String × Val)) (c : String) (v : Val)
    (cn : String) (h : cn ≠ c) :
    getCellList (setCellList ps c v) cn = getCellList ps cn := by
  induction ps with
  | nil => simp [setCellList, getCellList, Ne.symm h]
  | cons p ps ih =>
    rw [setCellList]
    by_cases hp : p.1 = c
    · rw [if_pos hp, getCellList, getCellList, if_neg (Ne.symm h),
        if_neg (by rw [hp]; exact Ne.symm h)]
    · rw [if_neg hp, getCellList, getCellList]
      by_cases hcn : p.1 = cn
      · rw [if_pos hcn, if_pos hcn]
      · rw [if_neg hcn, if_neg hcn, ih]

theorem getCell_setCell_ne (r : Row) (c : String) (v : Val) (cn : String) (h : cn ≠ c) :
    getCell (setCell r c v) cn = getCell r cn :=
  getCellList_setCellList_ne r.cells c v cn h

theorem getCell_extendRow_not_derived (r : Row) (a b c : Option ℝ) (cn : String)
    (h : cn ∉ derivedColNames) :
    getCell (extendRow r a b c) cn = getCell r cn := by
  have h1 : cn ≠ "ret_log_1d" := fun he => h (by simp [derivedColNames, he])
  have h2 : cn ≠ "vol_pk" := fun he => h (by simp [derivedColNames, he])
  have h3 : cn ≠ "vol_gk" := fun he => h (by simp [derivedColNames, he])
  rw [extendRow, getCell_setCell_ne _ _ _ _ h3, getCell_setCell_ne _ _ _ _ h2,
    getCell_setCell_ne _ _ _ _ h1]

theorem tickerKey_extendRow (r : Row) (a b c : Option ℝ) :
    tickerKey (extendRow r a b c) = tickerKey r := by
  unfold tickerKey
  rw [getCell_extendRow_not_derived r a b c "Ticker" (by simp [derivedColNames])]

theorem mem_attachFeats (s : List Row) (ret vpk vgk : List (Option ℝ)) (r' : Row)
    (h : r' ∈ attachFeats s ret vpk vgk) :
    ∃ r₀ ∈ s, ∃ a b c, r' = extendRow r₀ a b c := by
  rw [attachFeats] at h
  rcases List.mem_map.mp h with ⟨i, hi, rfl⟩
  have hilen : i < s.length := by simpa using hi
  have hgd : s.getD i ⟨0, []⟩ = s[i] := by
    rw [List.getD_eq_getElem?_getD, List.getElem?_eq_getElem hilen]
    rfl
  exact ⟨s.getD i ⟨0, []⟩, by rw [hgd]; exact List.getElem_mem hilen, _, _, _, rfl⟩

theorem mem_procGroup (w : ℕ) (g : List Row) (r' : Row) (h : r' ∈ procGroup w g) :
    ∃ r₀ ∈ g, ∃ a b c, r' = extendRow r₀ a b c := by
  rw [procGroup] at h
  rcases mem_attachFeats _ _ _ _ _ h with ⟨r₀, hr₀, hex⟩
  exact ⟨r₀, (sort_values_date_perm g).mem_iff.mp hr₀, hex⟩

theorem mem_flatRows (w : ℕ) (rows : List Row) (r' : Row) (h : r' ∈ flatRows w rows) :
    ∃ k ∈ distinctKeys rows, r' ∈ procGroup w (groupRows rows k) := by
  rw [flatRows] at h
  rcases List.mem_flatten.mp h with ⟨blk, hblk, hr⟩
  rcases List.mem_map.mp hblk with ⟨k, hk, rfl⟩
  exact ⟨k, hk, hr⟩

theorem groupRows_subset {rows : List Row} {k : String} {r : Row}
    (h : r ∈ groupRows rows k) : r ∈ rows :=
  List.mem_of_mem_filter h

theorem groupRows_key {rows : List Row} {k : String} {r : Row}
    (h : r ∈ groupRows rows k) : tickerKey r = some k := by
  have := List.of_mem_filter h
  simpa using this

theorem add_range_rows_provenance (t : Frame) (w : ℕ) (out : Frame)
    (hreq : requiredCols ⊆ t.cols)
    (hout : add_range_vol_features t w = .ok out) :
    ∀ r ∈ out.rows, ∃ r₀ ∈ t.rows, r₀.idx = r.idx ∧
      ∀ cn, cn ∉ derivedColNames → getCell r cn = getCell r₀ cn := by
  intro r hr
  by_cases hk : distinctKeys t.rows = []
  · rw [add_range_empty_keys t w (hreq (by simp [requiredCols])) hk] at hout
    injection hout with h
    subst h
    exact absurd hr (by simp)
  · rw [add_range_eq t w hreq hk] at hout
    injection hout with h
    subst h
    have hmemflat : r ∈ flatRows w t.rows := by
      by_cases hm : mutatedOf t.rows
      · rw [if_pos hm] at hr
        exact hr
      · rw [if_neg hm, reindexRows] at hr
        rcases List.mem_filterMap.mp hr with ⟨i, _, hfind⟩
        exact List.mem_of_find?_eq_some hfind
    rcases mem_flatRows w t.rows r hmemflat with ⟨k, _, hproc⟩
    rcases mem_procGroup w _ r hproc with ⟨r₀, hr₀, a, b, c, rfl⟩
    exact ⟨r₀, groupRows_subset hr₀, (extendRow_idx r₀ a b c).symm,
      fun cn hcn => getCell_extendRow_not_derived r₀ a b c cn hcn⟩

theorem procGroup_tickers (w : ℕ) (rows : List Row) (k : String) :
    ∀ r' ∈ procGroup w (groupRows rows k), tickerKey r' = some k := by
  intro r' h
  rcases mem_procGroup w _ r' h with ⟨r₀, hr₀, a, b, c, rfl⟩
  rw [tickerKey_extendRow]
  exact groupRows_key hr₀

theorem filterMap_tickers_replicate (k : String) : ∀ l : List Row,
    (∀ r ∈ l, tickerKey r = some k) → l.filterMap tickerKey = List.replicate l.length k
  | [], _ => rfl
  | r :: l, h => by
    rw [List.filterMap_cons, h r (by simp),
      filterMap_tickers_replicate k l (fun x hx => h x (by simp [hx]))]
    rfl

theorem sorted_flatten_replicate (len : String → ℕ) : ∀ keys : List String,
    List.Sorted (fun a b => strLe a b = true) keys →
    List.Sorted (fun a b => strLe a b = true)
      ((keys.map fun k => List.replicate (len k) k).flatten)
  | [], _ => by simp
  | k :: keys, hs => by
    rw [List.map_cons, List.flatten_cons]
    refine List.pairwise_append.mpr ⟨?_, ?_, ?_⟩
    · exact List.pairwise_replicate.mpr (Or.inr (strLe_refl k))
    · exact sorted_flatten_replicate len keys hs.of_cons
    · intro a ha b hb
      have ha' : a = k := List.eq_of_mem_replicate ha
      rcases List.mem_flatten.mp hb with ⟨blk, hblk, hbblk⟩
      rcases List.mem_map.mp hblk with ⟨k', hk', rfl⟩
      have hb' : b = k' := List.eq_of_mem_replicate hbblk
      subst ha'
      subst hb'
      exact List.rel_of_sorted_cons hs _ hk'

theorem filterMap_flatten_blocks {α β : Type} (f : α → Option β) :
    ∀ l : List (List α), (l.flatten).filterMap f = (l.map (List.filterMap f)).flatten
  | [] => rfl
  | x :: l => by
    rw [List.flatten_cons, List.filterMap_append, List.map_cons, List.flatten_cons,
      filterMap_flatten_blocks f l]

theorem flatRows_tickers_sorted (w : ℕ) (rows : List Row) :
    List.Sorted (fun a b => strLe a b = true) ((flatRows w rows).filterMap tickerKey) := by
  rw [flatRows, filterMap_flatten_blocks, List.map_map]
  have hblocks : (List.filterMap tickerKey ∘ fun k => procGroup w (groupRows rows k))
      = fun k => List.replicate ((procGroup w (groupRows rows k)).length) k :=
    funext fun k => filterMap_tickers_replicate k _ (procGroup_tickers w rows k)
  rw [hblocks]
  exact sorted_flatten_replicate (fun k => (procGroup w (groupRows rows k)).length) _
    (distinctKeys_sorted rows)

theorem by_ticker_error (cols : List String) (w : ℕ) (g : List Row)
    (hmiss : ¬("date" ∈ cols ∧ "Close" ∈ cols ∧ "High" ∈ cols ∧ "Low" ∈ cols ∧
      "Open" ∈ cols)) :
    ∃ c, c ∈ requiredCols ∧ c ∉ cols ∧ by_ticker cols w g = .error (.missingColumn c) := by
  by_cases hd : "date" ∈ cols
  · by_cases hc : "Close" ∈ cols
    · by_cases hh : "High" ∈ cols
      · by_cases hl : "Low" ∈ cols
        · by_cases ho : "Open" ∈ cols
          · exact absurd ⟨hd, hc, hh, hl, ho⟩ hmiss
          · exact ⟨"Open", by simp [requiredCols], ho,
              by rw [by_ticker, if_pos hd, if_pos hc, if_pos hh, if_pos hl, if_neg ho]⟩
        · exact ⟨"Low", by simp [requiredCols], hl,
            by rw [by_ticker, if_pos hd, if_pos hc, if_pos hh, if_neg hl]⟩
      · exact ⟨"High", by simp [requiredCols], hh,
          by rw [by_ticker, if_pos hd, if_pos hc, if_neg hh]⟩
    · exact ⟨"Close", by simp [requiredCols], hc,
        by rw [by_ticker, if_pos hd, if_neg hc]⟩
  · exact ⟨"date", by simp [requiredCols], hd, by rw [by_ticker, if_neg hd]⟩

/-- C5 counterexample: the empty table missing the required `Open` column
is returned unchanged by `add_range_vol_features` instead of failing with a
missing-column error, because pandas never calls the per-group function
when there are zero groups. -/
theorem C5_counterexample :
    "Open" ∉ exEmptyMissingOpen.cols ∧
    add_range_vol_features exEmptyMissingOpen 20 = .ok ⟨exEmptyMissingOpen.cols, []⟩ :=
  ⟨by decide, rfl⟩

/-- C5 (amended): a missing required column makes `add_range_vol_features`
fail with a missing-column error provided the grouping can observe it: the
missing column is `Ticker` itself, or some row carries a non-NaN ticker so
that at least one instrument partition exists.  (With zero partitions —
zero rows or all tickers NaN — missing columns other than `Ticker` go
undetected and an empty table is returned.) -/
theorem C5_missing_column_amended (t : Frame) (w : ℕ) (c : String)
    (hc : c ∈ requiredCols) (hmiss : c ∉ t.cols)
    (hrow : c = "Ticker" ∨ ∃ r ∈ t.rows, (tickerKey r).isSome) :
    ∃ e, e ∈ requiredCols ∧ e ∉ t.cols ∧
      add_range_vol_features t w = .error (.missingColumn e) := by
  by_cases ht : "Ticker" ∈ t.cols
  · have hrow' : ∃ r ∈ t.rows, (tickerKey r).isSome := by
      rcases hrow with rfl | h
      · exact absurd ht hmiss
      · exact h
    rcases hrow' with ⟨r, hr, hsome⟩
    rcases Option.isSome_iff_exists.mp hsome with ⟨s, hts⟩
    have hkne : distinctKeys t.rows ≠ [] :=
      List.ne_nil_of_mem (mem_distinctKeys t.rows r s hr hts)
    obtain ⟨k, ks, hkeys⟩ : ∃ k ks, distinctKeys t.rows = k :: ks := by
      cases hkk : distinctKeys t.rows with
      | nil => exact absurd hkk hkne
      | cons k ks => exact ⟨k, ks, rfl⟩
    have hmiss5 : ¬("date" ∈ t.cols ∧ "Close" ∈ t.cols ∧ "High" ∈ t.cols ∧
        "Low" ∈ t.cols ∧ "Open" ∈ t.cols) := by
      intro hall
      simp only [requiredCols, List.mem_cons, List.mem_singleton] at hc
      rcases hc with rfl | rfl | rfl | rfl | rfl | hc'
      · exact hmiss hall.1
      · exact hmiss ht
      · exact hmiss hall.2.2.2.2
      · exact hmiss hall.2.2.1
      · exact hmiss hall.2.2.2.1
      · rcases hc' with rfl | hc''
        · exact hmiss hall.2.1
        · exact absurd hc'' (by simp)
    rcases by_ticker_error t.cols w (groupRows t.rows k) hmiss5 with ⟨e, he, hene, herr⟩
    refine ⟨e, he, hene, ?_⟩
    rw [add_range_vol_features, if_pos ht, if_neg hkne, hkeys, List.map_cons,
      mapM_cons_error _ _ _ _ herr]
  · exact ⟨"Ticker", by simp [requiredCols], ht, add_range_error_ticker t w ht⟩

/-- Closed witness for the amended C5: a one-row table for instrument `A`
with the `Open` column absent fails with a missing-column error. -/
theorem C5_witness :
    ("Open" ∈ requiredCols ∧ "Open" ∉ exRowMissingOpen.cols ∧
      (∃ r ∈ exRowMissingOpen.rows, (tickerKey r).isSome)) ∧
    (∃ e, e ∈ requiredCols ∧ e ∉ exRowMissingOpen.cols ∧
      add_range_vol_features exRowMissingOpen 20 = .error (.missingColumn e)) :=
  ⟨⟨by decide, by decide,
      ⟨⟨0, [("date", .vint 0), ("Ticker", .vstr "A"), ("High", .vint 1), ("Low", .vint 1),
        ("Close", .vint 1)]⟩, by simp [exRowMissingOpen], by decide⟩⟩,
    C5_missing_column_amended exRowMissingOpen 20 "Open" (by decide) (by decide)
      (Or.inr ⟨⟨0, [("date", .vint 0), ("Ticker", .vstr "A"), ("High", .vint 1),
        ("Low", .vint 1), ("Close", .vint 1)]⟩, by simp [exRowMissingOpen], by decide⟩)⟩

/-- C6 counterexample: on the empty table with all required columns,
`add_range_vol_features` returns an empty table with the *input* schema —
the three derived columns are absent, contrary to the claimed augmented
schema (pandas group-apply never runs the function on zero groups). -/
theorem C6_counterexample :
    add_range_vol_features exEmptyRequired 20 = .ok ⟨exEmptyRequired.cols, []⟩ ∧
    "ret_log_1d" ∉ exEmptyRequired.cols ∧ "vol_pk" ∉ exEmptyRequired.cols ∧
    "vol_gk" ∉ exEmptyRequired.cols :=
  ⟨rfl, by decide, by decide, by decide⟩

/-- C6 (amended): the empty input table (zero rows, required columns
present) is not an error: the result is an empty table whose schema is
exactly the input columns; the derived columns are not added because the
per-group function never runs. -/
theorem C6_empty_input_amended (cols : List String) (w : ℕ) (ht : "Ticker" ∈ cols) :
    add_range_vol_features ⟨cols, []⟩ w = .ok ⟨cols, []⟩ :=
  add_range_empty_keys ⟨cols, []⟩ w ht rfl

/-- Closed witness for the amended C6 at the required schema. -/
theorem C6_witness :
    "Ticker" ∈ requiredCols ∧
    add_range_vol_features ⟨requiredCols, []⟩ 20 = .ok ⟨requiredCols, []⟩ :=
  ⟨by decide, C6_empty_input_amended requiredCols 20 (by decide)⟩

/-- C7 counterexample: a one-row table whose `Ticker` cell is NaN loses
its row — pandas groupby drops NaN keys (`dropna=True`), so the output has
fewer rows than the input. -/
theorem C7_counterexample :
    add_range_vol_features exNullTicker 20 = .ok ⟨exNullTicker.cols, []⟩ ∧
    exNullTicker.rows.length = 1 ∧ (1 : ℕ) ≠ 0 :=
  ⟨rfl, rfl, by decide⟩

/-- C7 (amended): with the required columns present the operation always
succeeds and the output row count equals the number of input rows whose
`Ticker` is not NaN; rows with a NaN instrument id are dropped, all others
are kept. -/
theorem C7_row_count_amended (t : Frame) (w : ℕ) (hreq : requiredCols ⊆ t.cols) :
    ∃ out, add_range_vol_features t w = .ok out ∧
      out.rows.length = (t.rows.filter fun r => (tickerKey r).isSome).length :=
  add_range_total t w hreq

/-- Closed witness for the amended C7 at a one-row table. -/
theorem C7_witness :
    requiredCols ⊆ exOneRow.cols ∧
    ∃ out, add_range_vol_features exOneRow 20 = .ok out ∧
      out.rows.length = (exOneRow.rows.filter fun r => (tickerKey r).isSome).length :=
  ⟨List.Subset.refl _, C7_row_count_amended exOneRow 20 (List.Subset.refl _)⟩

/-- C9 counterexample: a pre-existing input column named `vol_pk` (a column
beyond the required ones) does not appear untouched in the output — the
feature assignment overwrites it.  On a one-row table with `vol_pk = 7`,
the output's `vol_pk` cell is the computed NaN, not 7. -/
theorem C9_counterexample :
    getCell (⟨0, [("date", Val.vint 0), ("Ticker", Val.vstr "A"), ("Open", Val.vint 1),
      ("High", Val.vint 1), ("Low", Val.vint 1), ("Close", Val.vint 1),
      ("vol_pk", Val.vint 7)]⟩ : Row) "vol_pk" = Val.vint 7 ∧
    add_range_vol_features exPrefilledVolPk 20
      = .ok ⟨["date", "Ticker", "Open", "High", "Low", "Close", "vol_pk", "ret_log_1d",
          "vol_gk"],
        [⟨0, [("date", Val.vint 0), ("Ticker", Val.vstr "A"), ("Open", Val.vint 1),
          ("High", Val.vint 1), ("Low", Val.vint 1), ("Close", Val.vint 1),
          ("vol_pk", Val.vnull), ("ret_log_1d", Val.vnull), ("vol_gk", Val.vnull)]⟩]⟩ ∧
    getCell (⟨0, [("date", Val.vint 0), ("Ticker", Val.vstr "A"), ("Open", Val.vint 1),
      ("High", Val.vint 1), ("Low", Val.vint 1), ("Close", Val.vint 1),
      ("vol_pk", Val.vnull), ("ret_log_1d", Val.vnull), ("vol_gk", Val.vnull)]⟩ : Row)
        "vol_pk" ≠ Val.vint 7 :=
  ⟨rfl, rfl, by simp [getCell, getCellList]⟩

/-- C9 (amended): `add_range_vol_features` is pure over its input (the
embedding is value-based, so the input frame is never modified), and every
output row originates from the input row with the same index label with
every cell outside the three derived column names `ret_log_1d`, `vol_pk`,
`vol_gk` untouched; a pre-existing column with one of those three names is
overwritten by the assignment. -/
theorem C9_passthrough_amended (t : Frame) (w : ℕ) (out : Frame)
    (hreq : requiredCols ⊆ t.cols)
    (hout : add_range_vol_features t w = .ok out) :
    ∀ r ∈ out.rows, ∃ r₀ ∈ t.rows, r₀.idx = r.idx ∧
      ∀ cn, cn ∉ derivedColNames → getCell r cn = getCell r₀ cn :=
  add_range_rows_provenance t w out hreq hout

/-- Closed witness for the amended C9 at a one-row table. -/
theorem C9_witness :
    (requiredCols ⊆ exOneRow.cols ∧
      add_range_vol_features exOneRow 20
        = .ok ⟨["date", "Ticker", "Open", "High", "Low", "Close", "ret_log_1d", "vol_pk",
            "vol_gk"],
          [⟨0, [("date", Val.vint 0), ("Ticker", Val.vstr "A"), ("Open", Val.vint 1),
            ("High", Val.vint 1), ("Low", Val.vint 1), ("Close", Val.vint 1),
            ("ret_log_1d", Val.vnull), ("vol_pk", Val.vnull), ("vol_gk", Val.vnull)]⟩]⟩) ∧
    (∀ r ∈ (⟨["date", "Ticker", "Open", "High", "Low", "Close", "ret_log_1d", "vol_pk",
          "vol_gk"],
        [⟨0, [("date", Val.vint 0), ("Ticker", Val.vstr "A"), ("Open", Val.vint 1),
          ("High", Val.vint 1), ("Low", Val.vint 1), ("Close", Val.vint 1),
          ("ret_log_1d", Val.vnull), ("vol_pk", Val.vnull), ("vol_gk", Val.vnull)]⟩]⟩ :
          Frame).rows,
      ∃ r₀ ∈ exOneRow.rows, r₀.idx = r.idx ∧
        ∀ cn, cn ∉ derivedColNames → getCell r cn = getCell r₀ cn) :=
  ⟨⟨List.Subset.refl _, rfl⟩,
    C9_passthrough_amended exOneRow 20 _ (List.Subset.refl _) rfl⟩

/-- C10 counterexample: on a table with instruments `B` then `A`, one row
each (every partition already date-sorted), the output keeps the original
row order `B, A` — pandas reindexes the result back to the input order
when no group was reordered — so the partitions do not appear in ascending
`Ticker` order. -/
theorem C10_counterexample :
    add_range_vol_features exTwoTickers 20
      = .ok ⟨["date", "Ticker", "Open", "High", "Low", "Close", "ret_log_1d", "vol_pk",
          "vol_gk"],
        [⟨0, [("date", Val.vint 0), ("Ticker", Val.vstr "B"), ("Open", Val.vint 1),
          ("High", Val.vint 1), ("Low", Val.vint 1), ("Close", Val.vint 1),
          ("ret_log_1d", Val.vnull), ("vol_pk", Val.vnull), ("vol_gk", Val.vnull)]⟩,
        ⟨1, [("date", Val.vint 0), ("Ticker", Val.vstr "A"), ("Open", Val.vint 1),
          ("High", Val.vint 1), ("Low", Val.vint 1), ("Close", Val.vint 1),
          ("ret_log_1d", Val.vnull), ("vol_pk", Val.vnull), ("vol_gk", Val.vnull)]⟩]⟩ ∧
    ([⟨0, [("date", Val.vint 0), ("Ticker", Val.vstr "B"), ("Open", Val.vint 1),
        ("High", Val.vint 1), ("Low", Val.vint 1), ("Close", Val.vint 1),
        ("ret_log_1d", Val.vnull), ("vol_pk", Val.vnull), ("vol_gk", Val.vnull)]⟩,
      ⟨1, [("date", Val.vint 0), ("Ticker", Val.vstr "A"), ("Open", Val.vint 1),
        ("High", Val.vint 1), ("Low", Val.vint 1), ("Close", Val.vint 1),
        ("ret_log_1d", Val.vnull), ("vol_pk", Val.vnull), ("vol_gk", Val.vnull)]⟩] :
        List Row).filterMap tickerKey = ["B", "A"] ∧
    ¬ List.Sorted (fun a b => strLe a b = true) ["B", "A"] :=
  ⟨rfl, rfl, by decide⟩

/-- C10 (amended): whenever at least one partition's rows are reordered by
the date sort (`mutatedOf`), the output concatenates the per-instrument
blocks in ascending `Ticker` order, so the output ticker sequence is
sorted; when every partition is already date-sorted, the output instead
keeps the original input row order (see the counterexample). -/
theorem C10_group_order_amended (t : Frame) (w : ℕ)
    (hreq : requiredCols ⊆ t.cols) (hmut : mutatedOf t.rows = true) :
    add_range_vol_features t w
        = .ok ⟨addDerivedCols t.cols, flatRows w t.rows⟩ ∧
      List.Sorted (fun a b => strLe a b = true)
        ((flatRows w t.rows).filterMap tickerKey) := by
  have hkne : distinctKeys t.rows ≠ [] := by
    intro h
    rw [mutatedOf, h] at hmut
    exact absurd hmut (by simp)
  constructor
  · rw [add_range_eq t w hreq hkne, if_pos hmut]
  · exact flatRows_tickers_sorted w t.rows

/-- Closed witness for the amended C10 at a table whose single partition
is in descending date order. -/
theorem C10_witness :
    (requiredCols ⊆ exUnsortedDates.cols ∧ mutatedOf exUnsortedDates.rows = true) ∧
    (add_range_vol_features exUnsortedDates 20
        = .ok ⟨addDerivedCols exUnsortedDates.cols, flatRows 20 exUnsortedDates.rows⟩ ∧
      List.Sorted (fun a b => strLe a b = true)
        ((flatRows 20 exUnsortedDates.rows).filterMap tickerKey)) :=
  ⟨⟨List.Subset.refl _, by decide⟩,
    C10_group_order_amended exUnsortedDates 20 (List.Subset.refl _) (by decide)⟩

/-- C8: on inputs containing entries whose per-day logarithm is undefined
(non-positive price ratios, zero divisors, NaN), the series operations
complete and return sequences of the input length with the affected
positions undefined — NaN propagates, no exception; and with the required
columns present, `add_range_vol_features` completes successfully without
dropping any row whose ticker is present.  (In the embedding, IEEE NaN and
the non-finite values of `log` on non-positive arguments and of division
by zero are the `none` entries.) -/
theorem C8_nan_propagation (close high low open_ : List (Option ℝ)) (w i j : ℕ)
    (t : Frame)
    (hlh : high.length = close.length) (hll : low.length = close.length)
    (hlo : open_.length = close.length)
    (hj : j < close.length) (hi : i < close.length)
    (hwi : w ≤ i + 1) (hj₁ : i + 1 - w ≤ j) (hj₂ : j ≤ i)
    (hreq : requiredCols ⊆ t.cols)
    (htick : ∀ r ∈ t.rows, (tickerKey r).isSome) :
    ((log_returns close).length = close.length ∧
      (parkinson_vol high low w).length = close.length ∧
      (garman_klass_vol open_ high low close w).length = close.length) ∧
    (olog (close.getD j none) = none →
      (log_returns close).getD j none = none ∧
      (j + 1 < close.length → (log_returns close).getD (j + 1) none = none)) ∧
    (olog (odiv (high.getD j none) (low.getD j none)) = none →
      (parkinson_vol high low w).getD i none = none) ∧
    ((olog (odiv (high.getD j none) (low.getD j none)) = none ∨
        olog (odiv (close.getD j none) (open_.getD j none)) = none) →
      (garman_klass_vol open_ high low close w).getD i none = none) ∧
    (∃ out, add_range_vol_features t w = .ok out ∧ out.rows.length = t.rows.length) := by
  have hpklen : (pkTerms high low).length = close.length := by
    simp [pkTerms, hlh, hll]
  have hgklen : (gkVar open_ high low close).length = close.length := by
    simp [gkVar, hlh, hll, hlo]
  refine ⟨⟨?_, ?_, ?_⟩, ?_, ?_, ?_, ?_⟩
  · simp [log_returns, diff1_length]
  · simp [parkinson_vol, rollingSum_length, hpklen]
  · simp [garman_klass_vol, rollingSum_length, hgklen]
  · intro hb
    have hmaplen : j < (close.map olog).length := by simpa using hj
    have hxs : (close.map olog).getD j none = none := by
      rw [getD_map_lt olog close j none none hj]
      exact hb
    constructor
    · cases j with
      | zero =>
        rw [log_returns, diff1_getD_zero _ (by simpa using hj)]
      | succ m =>
        rw [log_returns, diff1_getD_succ _ m (by simpa using hj), hxs]
        cases hxm : (close.map olog).getD m none <;> simp [hxm]
    · intro hj1
      rw [log_returns, diff1_getD_succ _ j (by simpa using hj1), hxs]
      rfl
  · intro hbad
    have hterms : (pkTerms high low).getD j none = none := by
      rw [pkTerms, getD_map_lt _ _ j none none (by simp [hlh, hll]; omega),
        getD_zipWith_lt _ high low j none none none (by omega) (by omega), hbad]
      rfl
    rw [parkinson_vol, getD_map_lt _ _ i none none (by rw [rollingSum_length, hpklen]; exact hi),
      rollingSum_getD_none w _ i j (by rw [hpklen]; exact hi) hwi hj₁ hj₂ hterms]
    rfl
  · intro hbad
    have hvar : (gkVar open_ high low close).getD j none = none := by
      rw [gkVar, getD_zipWith_lt _ _ _ j none none none (by simp [hlh, hll]; omega)
        (by simp [hlo]; omega),
        getD_zipWith_lt _ high low j none none none (by omega) (by omega),
        getD_zipWith_lt _ close open_ j none none none (by omega) (by omega)]
      rcases hbad with h | h
      · rw [h]
        rfl
      · rw [h]
        cases ha : olog (odiv (high.getD j none) (low.getD j none)) <;> simp
    rw [garman_klass_vol,
      getD_map_lt _ _ i none none (by simp [rollingSum_length, hgklen, hi]),
      getD_map_lt _ _ i none none (by simp [rollingSum_length, hgklen, hi]),
      rollingSum_getD_none w _ i j (by rw [hgklen]; exact hi) hwi hj₁ hj₂ hvar]
    rfl
  · rcases add_range_total t w hreq with ⟨out, hok, hlen⟩
    refine ⟨out, hok, ?_⟩
    rw [hlen, List.filter_eq_self.mpr (fun r hr => by simpa using htick r hr)]

/-- Closed witness for C8 at a series with a negative close on day 0 and a
two-instrument table. -/
theorem C8_witness :
    (([some 1, some 1] : List (Option ℝ)).length = ([some (-1), some 1] :
        List (Option ℝ)).length ∧
      requiredCols ⊆ exTwoTickers.cols ∧
      (∀ r ∈ exTwoTickers.rows, (tickerKey r).isSome) ∧
      olog (([some (-1), some 1] : List (Option ℝ)).getD 0 none) = none) ∧
    (((log_returns [some (-1), some 1]).length
        = ([some (-1), some 1] : List (Option ℝ)).length ∧
      (parkinson_vol [some 1, some 1] [some 1, some 1] 1).length
        = ([some (-1), some 1] : List (Option ℝ)).length ∧
      (garman_klass_vol [some 1, some 1] [some 1, some 1] [some 1, some 1]
          [some (-1), some 1] 1).length
        = ([some (-1), some 1] : List (Option ℝ)).length) ∧
    (olog (([some (-1), some 1] : List (Option ℝ)).getD 0 none) = none →
      (log_returns [some (-1), some 1]).getD 0 none = none ∧
      (0 + 1 < ([some (-1), some 1] : List (Option ℝ)).length →
        (log_returns [some (-1), some 1]).getD (0 + 1) none = none)) ∧
    (olog (odiv (([some 1, some 1] : List (Option ℝ)).getD 0 none)
        (([some 1, some 1] : List (Option ℝ)).getD 0 none)) = none →
      (parkinson_vol [some 1, some 1] [some 1, some 1] 1).getD 0 none = none) ∧
    ((olog (odiv (([some 1, some 1] : List (Option ℝ)).getD 0 none)
          (([some 1, some 1] : List (Option ℝ)).getD 0 none)) = none ∨
        olog (odiv (([some (-1), some 1] : List (Option ℝ)).getD 0 none)
          (([some 1, some 1] : List (Option ℝ)).getD 0 none)) = none) →
      (garman_klass_vol [some 1, some 1] [some 1, some 1] [some 1, some 1]
        [some (-1), some 1] 1).getD 0 none = none) ∧
    (∃ out, add_range_vol_features exTwoTickers 1 = .ok out ∧
      out.rows.length = exTwoTickers.rows.length)) :=
  ⟨⟨rfl, List.Subset.refl _, by decide, by norm_num [olog, mlog]⟩,
    C8_nan_propagation [some (-1), some 1] [some 1, some 1] [some 1, some 1]
      [some 1, some 1] 1 0 0 exTwoTickers rfl rfl rfl (by norm_num) (by norm_num)
      (le_refl 1) (by norm_num) (by norm_num) (List.Subset.refl _) (by decide)⟩
